import Mathlib

/-!
Verification of the data-acquisition and reconciliation engine of the
GitHub activity dashboard (the `all_user_commit` CLI, `src/unnamed/part_004`,
and the fetch variant embedded in
`src/reports/dashboard/all_user_commit.openapi.json`).

The JavaScript source is shallowly embedded as pure Lean functions:

* remote HTTP calls are an oracle (`Api`): every request site of the source
  maps to one oracle field, and an oracle value fixes what the remote end
  would have answered on each request;
* the mutable instance state of the `AllUserCommit` class that the analyzed
  functions read or write (`totalFetched`, `errors`, `cancelled`) is threaded
  explicitly as a `St` record;
* `while` loops become fuel-indexed structural recursion (the fuel only
  bounds the page loops, which the source bounds by the remote data running
  out; every theorem instantiates the fuel large enough for its data);
* calendar dates are modeled as integer day numbers: the source only ever
  adds whole days (`setDate(getDate() + 7)` and `+ 8`), compares Date values
  and prints them back, so date arithmetic is addition on day numbers;
* commit fields `parents`, `stats` and `files` (filled in by
  `getDetailedCommitInfo`, whose failures the source swallows and which
  never changes how many commits exist or how they are keyed) are omitted
  from the `Commit` record;
* JavaScript exceptions become `Except`: functions of the source that can
  throw to their caller return `Except`, functions that swallow every
  error return plainly.
-/

/-! ## Data model -/

/-- `type` field of a commit record (`CommitSchema`, part_004 line 121). -/
inductive CommitType where
  | direct
  | pull_request
deriving Repr, DecidableEq

/-- A commit record as built by `getRepositoryCommits` (part_004 lines
474-483) and `getPullRequestCommits` (lines 771-780).  `parents`, `stats`
and `files` are omitted (see the header). -/
structure Commit where
  sha : String
  message : String
  date : String
  repository : String
  type : CommitType
  pullRequest : Option Nat
  author : String
  url : String
deriving Repr, DecidableEq

/-- The fields of a raw commit returned by the commits endpoints that the
source copies into a `Commit` (`commit.sha`, `commit.commit.message`,
`commit.commit.committer.date`, `commit.commit.author.name`,
`commit.html_url`). -/
structure RawCommit where
  sha : String
  message : String
  date : String
  authorName : String
  url : String
deriving Repr, DecidableEq

/-- The fields of a repository list entry that the source uses
(`repo.owner.login`, `repo.name`). -/
structure Repo where
  owner : String
  name : String
deriving Repr, DecidableEq

/-- The fields of a `GET /search/issues` item that the source uses:
`id` (the stable PR identity in the spec), `number` and `repository_url`. -/
structure PRItem where
  id : Nat
  number : Nat
  repository_url : String
deriving Repr, DecidableEq

/-- A date partition (`createDatePartitions`, part_004 lines 693-696).
`startDay`/`endDay` are the `start`/`end` fields, as day numbers. -/
structure Partition where
  startDay : Int
  endDay : Int
deriving Repr, DecidableEq

/-- An entry of `this.errors` (part_004 lines 387-391, 533-537, 805-810).
The source records a small object per failure; `detail` stands for its
context fields (username, `owner/repo`, PR number). -/
structure ErrRec where
  operation : String
  detail : String
  error : String
deriving Repr, DecidableEq

/-- A thrown request error as the source inspects it: `error.status`
(absent for non-HTTP failures), `error.message`, and the result of
`error.message.includes("Only the first 1000")` precomputed as a flag. -/
structure GhError where
  status : Option Nat
  message : String
  msgHas1000Limit : Bool
deriving Repr, DecidableEq

/-- The mutable instance state read and written by the embedded functions:
`this.totalFetched`, `this.errors`, `this.cancelled` (part_004 lines
180-184).  `cancelled` is set only by the SIGINT handler, which is outside
a normal run; no embedded function sets it. -/
structure St where
  totalFetched : Nat
  errors : List ErrRec
  cancelled : Bool
deriving Repr, DecidableEq

/-- The configuration fields consulted by the embedded functions
(`ConfigSchema`, part_004 lines 130-149).  `startDay`/`endDay` are the
`start`/`end` dates, as day numbers; `repo` is the raw comma-separated
repository list. -/
structure Config where
  searchUser : String
  org : Option String
  repo : Option String
  ignoreDateRange : Bool
  totalRecords : Nat
  includeDetails : Bool
  startDay : Option Int
  endDay : Option Int
deriving Repr, DecidableEq

/-- The request oracle: one field per request site of part_004, giving the
outcome the remote end answers for each parameter tuple.  Page requests
carry `page` and `per_page` exactly as the source sends them; the commits
listing also carries the `since`/`until` range the source attaches. -/
structure Api where
  userLookup : Except GhError Unit
  usersRepos : Nat → Nat → Except GhError (List Repo)
  repoCommits : String → String → Option (Int × Int) → Nat → Nat → Except GhError (List RawCommit)
  searchIssues : String → Nat → Nat → Except GhError (List PRItem)
  pullCommits : String → String → Nat → Except GhError (List RawCommit)

/-- Errors that abort `analyzeUserCommits`: a failed user validation
(part_004 lines 326-338) or a search error rethrown by
`searchPullRequestsForQuery` (line 756). -/
inductive RunError where
  | userNotFound
  | userValidationFailed (msg : String)
  | search (e : GhError)
deriving Repr, DecidableEq

/-! ## Budget accounting helpers -/

/-- `Number.MAX_SAFE_INTEGER`. -/
def maxSafeInteger : Nat := 2 ^ 53 - 1

/-- `checkTotalRecordsLimit` (part_004 lines 340-345). -/
def checkTotalRecordsLimit (cfg : Config) (st : St) : Bool :=
  decide (0 < cfg.totalRecords) && decide (cfg.totalRecords ≤ st.totalFetched)

/-- `getRemainingRecords` (part_004 lines 347-350).  `Math.max(0, _)` is
natural subtraction. -/
def getRemainingRecords (cfg : Config) (st : St) : Nat :=
  if cfg.totalRecords = 0 then maxSafeInteger
  else cfg.totalRecords - st.totalFetched

/-- `this.errors.push({...})`. -/
def recordError (st : St) (operation detail message : String) : St :=
  { st with errors := st.errors ++ [⟨operation, detail, message⟩] }

/-- The `since`/`until` range `getRepositoryCommits` attaches to a request:
present only when a date range was passed and `ignoreDateRange` is off
(part_004 lines 459-462). -/
def effDateRange (cfg : Config) (dateRange : Option (Int × Int)) : Option (Int × Int) :=
  match dateRange with
  | some d => if cfg.ignoreDateRange then none else some d
  | none => none

/-! ## Date partitioner -/

/-- The body of the `while (current < end)` loop of `createDatePartitions`
(part_004 lines 685-699): emit `[current, min(current+7, end)]`, advance
`current` by 8 days.  The fuel only bounds the loop. -/
def partitionsGo (endD : Int) : Nat → Int → List Partition
  | 0, _ => []
  | fuel + 1, current =>
    if current < endD then
      let pe : Int := if current + 7 > endD then endD else current + 7
      { startDay := current, endDay := pe } :: partitionsGo endD fuel (current + 8)
    else []

/-- `createDatePartitions(startDate, endDate)` (part_004 lines 677-702).
The loop advances by 8 days per iteration, so `(endD - startD).toNat + 1`
iterations are never exhausted. -/
def createDatePartitions (startD endD : Int) : List Partition :=
  partitionsGo endD ((endD - startD).toNat + 1) startD

/-- The date-order validation of `main` (part_004 lines 1487-1494): the CLI
exits with "Start date must be before end date" exactly when
`new Date(start) > new Date(end)`. -/
def cliRejectsDateOrder (startD endD : Int) : Bool :=
  decide (endD < startD)

/-! ## Reconciler (part_004 lines 952-968) -/

/-- The effect of the first reconciliation loop on one matched direct
commit: `directCommit.type = "pull_request"; directCommit.pullRequest =
prCommit.pullRequest` (part_004 lines 958-959). -/
def reclassifiedWith (d prc : Commit) : Commit :=
  { d with type := CommitType.pull_request, pullRequest := prc.pullRequest }

/-- `directCommits.find((c) => c.sha === prCommit.sha)` followed by the
in-place field writes: update the first commit with a matching sha, leave
the rest unchanged. -/
def updateFirstBySha : List Commit → Commit → List Commit
  | [], _ => []
  | c :: cs, prc =>
    if c.sha = prc.sha then reclassifiedWith c prc :: cs
    else c :: updateFirstBySha cs prc

/-- The first reconciliation loop (part_004 lines 953-961): for each PR
commit in order, reclassify the first direct commit with the same sha. -/
def reclassifyCommits (direct : List Commit) : List Commit → List Commit
  | [] => direct
  | prc :: rest => reclassifyCommits (updateFirstBySha direct prc) rest

/-- The second reconciliation loop (part_004 lines 964-968): append each PR
commit whose sha is absent from the (live, growing) `directCommits` array. -/
def appendMissingPrCommits (direct : List Commit) : List Commit → List Commit
  | [] => direct
  | prc :: rest =>
    if direct.any (fun c => c.sha == prc.sha) then appendMissingPrCommits direct rest
    else appendMissingPrCommits (direct ++ [prc]) rest

/-- The whole reconciliation step of `analyzeUserCommits`
(part_004 lines 952-968). -/
def reconcileCommits (direct prCommits : List Commit) : List Commit :=
  appendMissingPrCommits (reclassifyCommits direct prCommits) prCommits

/-! ## Dual-query merger (part_004 lines 598-620) -/

/-- The deduplication key actually used by the source:
`p.number === pr.number && p.repository_url === pr.repository_url`. -/
def prKey (p : PRItem) : Nat × String :=
  (p.number, p.repository_url)

/-- `allPullRequests.filter((pr, index, self) => index === self.findIndex(p =>
p.number === pr.number && p.repository_url === pr.repository_url))`
(part_004 lines 601-608): keep the first occurrence of each
(number, repository_url) pair.  `acc` is the kept prefix. -/
def dedupGo : List PRItem → List PRItem → List PRItem
  | [], acc => acc
  | p :: rest, acc =>
    if acc.any (fun q => q.number == p.number && q.repository_url == p.repository_url) then
      dedupGo rest acc
    else dedupGo rest (acc ++ [p])

/-- The dual-query deduplication applied to `[...authorResults, ...userResults]`. -/
def dedupByNumberRepo (prs : List PRItem) : List PRItem :=
  dedupGo prs []

/-! ## Request executor with retries
(`makeRequest` of the fetch variant embedded in
`src/reports/dashboard/all_user_commit.openapi.json`, lines 757-836;
the part_004 `makeRequest` at lines 275-324 performs no retries itself and
rethrows every error unchanged). -/

/-- The outcome of one `octokit.request` attempt: success, or a thrown
error carrying `error.status` and whether
`error.response.headers["x-ratelimit-remaining"] === "0"`. -/
inductive ReqOutcome where
  | ok (data : Nat)
  | err (status : Option Nat) (remainingZero : Bool)
deriving Repr, DecidableEq

/-- A sleep inserted by a retry branch: waiting out the rate-limit reset,
or an exponential backoff of the given number of seconds. -/
inductive Wait where
  | reset
  | backoff (secs : Nat)
deriving Repr, DecidableEq

/-- How a `makeRequest` call ends.  `loopFellThrough` is the case where
`retries` reaches `maxRetries` and the `while` loop exits without a
`return` or `throw`: the source then returns `undefined`.
`noMoreOutcomes` marks an oracle shorter than the attempts made (unused by
any theorem: the loop makes at most 3 attempts). -/
inductive MakeResult where
  | success (data : Nat) (waits : List Wait)
  | thrown (status : Option Nat) (remainingZero : Bool) (waits : List Wait)
  | loopFellThrough (waits : List Wait)
  | noMoreOutcomes (waits : List Wait)
deriving Repr, DecidableEq

/-- `error.status >= 400` under JavaScript semantics: false when `status`
is absent (`undefined >= 400` is false). -/
def statusAtLeast400 (status : Option Nat) : Bool :=
  match status with
  | some s => decide (400 ≤ s)
  | none => false

/-- The retry loop of the openapi.json `makeRequest`: `retries` starts at
0, `maxRetries = 3`.  A 403 with zero remaining waits for the reset and
retries; any other `status >= 400` error with `retries < maxRetries - 1`
sleeps `2 ^ retries` seconds and retries; anything else is rethrown
unmodified.  Each loop iteration consumes one oracle outcome. -/
def makeRequestGo (maxRetries : Nat) : List ReqOutcome → Nat → List Wait → MakeResult
  | [], retries, waits =>
    if retries < maxRetries then MakeResult.noMoreOutcomes waits.reverse
    else MakeResult.loopFellThrough waits.reverse
  | o :: rest, retries, waits =>
    if retries < maxRetries then
      match o with
      | ReqOutcome.ok d => MakeResult.success d waits.reverse
      | ReqOutcome.err status remainingZero =>
        if status = some 403 ∧ remainingZero = true then
          makeRequestGo maxRetries rest (retries + 1) (Wait.reset :: waits)
        else if statusAtLeast400 status = true ∧ retries < maxRetries - 1 then
          makeRequestGo maxRetries rest (retries + 1) (Wait.backoff (2 ^ retries) :: waits)
        else MakeResult.thrown status remainingZero waits.reverse
    else MakeResult.loopFellThrough waits.reverse

/-- `makeRequest` of the openapi.json fetch variant, over the oracle list
of per-attempt outcomes. -/
def makeRequest (outcomes : List ReqOutcome) : MakeResult :=
  makeRequestGo 3 outcomes 0 []

/-! ## Repository walker -/

/-- Transformation of one raw commit by `getRepositoryCommits`
(part_004 lines 474-483): `type: "direct"`, `pullRequest: null`. -/
def mkDirectCommit (owner repo : String) (rc : RawCommit) : Commit :=
  { sha := rc.sha, message := rc.message, date := rc.date,
    repository := owner ++ "/" ++ repo, type := CommitType.direct,
    pullRequest := none, author := rc.authorName, url := rc.url }

/-- Transformation of one raw commit by `getPullRequestCommits`
(part_004 lines 771-780): `type: "pull_request"`, `pullRequest: pullNumber`. -/
def mkPrCommit (owner repo : String) (pullNumber : Nat) (rc : RawCommit) : Commit :=
  { sha := rc.sha, message := rc.message, date := rc.date,
    repository := owner ++ "/" ++ repo, type := CommitType.pull_request,
    pullRequest := some pullNumber, author := rc.authorName, url := rc.url }

/-- The `while` loop of `getUserRepositories` (part_004 lines 352-397):
paginate the repository list with `per_page = min(100, remaining)`,
stopping on an empty page, a short page, the budget, or any error (which
is recorded, not rethrown). -/
def getUserRepositoriesGo (cfg : Config) (api : Api) :
    Nat → Nat → List Repo → St → List Repo × St
  | 0, _, repos, st => (repos, st)
  | fuel + 1, page, repos, st =>
    if st.cancelled || checkTotalRecordsLimit cfg st then (repos, st)
    else
      match api.usersRepos page (min 100 (getRemainingRecords cfg st)) with
      | Except.error e =>
        (repos, recordError st "getUserRepositories" cfg.searchUser e.message)
      | Except.ok response =>
        if response.length = 0 then (repos, st)
        else
          let repos2 := repos ++ response
          let st2 := { st with totalFetched := st.totalFetched + response.length }
          if response.length < 100 then (repos2, st2)
          else if checkTotalRecordsLimit cfg st2 then
            let excess := st2.totalFetched - cfg.totalRecords
            if 0 < excess then
              (repos2.take (repos2.length - excess),
               { st2 with totalFetched := cfg.totalRecords })
            else (repos2, st2)
          else getUserRepositoriesGo cfg api fuel (page + 1) repos2 st2

/-- `getUserRepositories(username)`: the loop entered with `page = 1` and
an empty accumulator. -/
def getUserRepositories (cfg : Config) (api : Api) (fuel : Nat) (st : St) :
    List Repo × St :=
  getUserRepositoriesGo cfg api fuel 1 [] st

/-- The `while` loop of `getRepositoryCommits` (part_004 lines 444-543):
paginate a repository commit listing with `per_page = min(100, remaining)`
and the date filter of `effDateRange`; a 409 (empty repository) or 404
stops the loop silently, any other error is recorded; both return the
commits accumulated so far. -/
def getRepositoryCommitsGo (cfg : Config) (api : Api)
    (owner repo author : String) (dateRange : Option (Int × Int)) :
    Nat → Nat → List Commit → St → List Commit × St
  | 0, _, acc, st => (acc, st)
  | fuel + 1, page, acc, st =>
    if st.cancelled || checkTotalRecordsLimit cfg st then (acc, st)
    else
      match api.repoCommits owner repo (effDateRange cfg dateRange) page
          (min 100 (getRemainingRecords cfg st)) with
      | Except.error e =>
        if e.status = some 409 ∨ e.status = some 404 then (acc, st)
        else (acc, recordError st "getRepositoryCommits" (owner ++ "/" ++ repo) e.message)
      | Except.ok response =>
        if response.length = 0 then (acc, st)
        else
          let acc2 := acc ++ response.map (mkDirectCommit owner repo)
          let st2 := { st with totalFetched := st.totalFetched + response.length }
          if response.length < 100 then (acc2, st2)
          else if checkTotalRecordsLimit cfg st2 then
            let excess := st2.totalFetched - cfg.totalRecords
            if 0 < excess then
              (acc2.take (acc2.length - excess),
               { st2 with totalFetched := cfg.totalRecords })
            else (acc2, st2)
          else getRepositoryCommitsGo cfg api owner repo author dateRange fuel
              (page + 1) acc2 st2

/-- `getRepositoryCommits(owner, repo, author, dateRange)`: the loop
entered with `page = 1` and an empty accumulator (`author` is sent in the
request; the oracle already answers for the author-filtered
listing). -/
def getRepositoryCommits (cfg : Config) (api : Api)
    (owner repo author : String) (dateRange : Option (Int × Int))
    (fuel : Nat) (st : St) : List Commit × St :=
  getRepositoryCommitsGo cfg api owner repo author dateRange fuel 1 [] st

/-- The repository filter of `searchUserRepositoryCommits`
(part_004 lines 553-562): an `org` mismatch rejects; a `repo` list keeps
only the named repositories (comma-separated, trimmed). -/
def filterRepos (cfg : Config) (repos : List Repo) : List Repo :=
  repos.filter fun r =>
    (match cfg.org with
     | some o => r.owner == o
     | none => true) &&
    (match cfg.repo with
     | some rs => ((rs.splitOn ",").map String.trim).contains r.name
     | none => true)

/-- The per-repository loop of `searchUserRepositoryCommits`
(part_004 lines 569-585). -/
def walkRepos (cfg : Config) (api : Api) (fuel : Nat) (author : String)
    (dateRange : Option (Int × Int)) :
    List Repo → List Commit → St → List Commit × St
  | [], acc, st => (acc, st)
  | r :: rest, acc, st =>
    if st.cancelled || checkTotalRecordsLimit cfg st then (acc, st)
    else
      let res := getRepositoryCommits cfg api r.owner r.name author dateRange fuel st
      let acc2 := acc ++ res.1
      if checkTotalRecordsLimit cfg res.2 then (acc2, res.2)
      else walkRepos cfg api fuel author dateRange rest acc2 res.2

/-- `searchUserRepositoryCommits(searchUser, dateRange)`
(part_004 lines 545-588). -/
def searchUserRepositoryCommits (cfg : Config) (api : Api) (fuel : Nat)
    (searchUser : String) (dateRange : Option (Int × Int)) (st : St) :
    List Commit × St :=
  let res := getUserRepositories cfg api fuel st
  walkRepos cfg api fuel searchUser dateRange (filterRepos cfg res.1) [] res.2

/-! ## Dual-query pull-request search -/

/-- The query string construction of `searchPullRequestsForUser`
(part_004 lines 624-643).  When a `repo` list is given the query is rebuilt
from `baseQuery`, dropping any `org:` clause, exactly as in the source. -/
def buildSearchQuery (cfg : Config) (baseQuery : String) : String :=
  let query := baseQuery ++ " is:pr"
  let query :=
    match cfg.org with
    | some o => query ++ " org:" ++ o
    | none => query
  match cfg.repo with
  | some rs =>
    let names := (rs.splitOn ",").map String.trim
    match cfg.org with
    | some o =>
      baseQuery ++ " is:pr (" ++
        String.intercalate " OR " (names.map (fun n => "repo:" ++ o ++ "/" ++ n)) ++ ")"
    | none =>
      baseQuery ++ " is:pr (" ++
        String.intercalate " OR " (names.map (fun n => "repo:*/" ++ n)) ++ ")"
  | none => query

/-- The `while` loop of `searchPullRequestsForQuery`
(part_004 lines 704-761).  `totalFetched` is not changed here; a 422 error
whose message contains "Only the first 1000" stops pagination silently,
any other error is rethrown. -/
def searchPRQueryGo (cfg : Config) (api : Api) (query : String) :
    Nat → Nat → List PRItem → St → Except GhError (List PRItem × St)
  | 0, _, acc, st => Except.ok (acc, st)
  | fuel + 1, page, acc, st =>
    if st.cancelled || checkTotalRecordsLimit cfg st then Except.ok (acc, st)
    else
      match api.searchIssues query page (min 100 (getRemainingRecords cfg st)) with
      | Except.error e =>
        if e.status = some 422 ∧ e.msgHas1000Limit = true then Except.ok (acc, st)
        else Except.error e
      | Except.ok items =>
        if items.length = 0 then Except.ok (acc, st)
        else
          let acc2 := acc ++ items
          if items.length < 100 then Except.ok (acc2, st)
          else if checkTotalRecordsLimit cfg st then
            let excess := acc2.length - getRemainingRecords cfg st
            Except.ok (if 0 < excess then acc2.take (acc2.length - excess) else acc2, st)
          else searchPRQueryGo cfg api query fuel (page + 1) acc2 st

/-- `searchPullRequestsForQuery(query)`: the loop entered with `page = 1`. -/
def searchPullRequestsForQuery (cfg : Config) (api : Api) (fuel : Nat)
    (query : String) (st : St) : Except GhError (List PRItem × St) :=
  searchPRQueryGo cfg api query fuel 1 [] st

/-- The per-partition loop of `searchPullRequestsForUser`
(part_004 lines 652-668): one search per partition with a
`created:start..end` clause, truncating once the budget is reached. -/
def searchPRsPartLoop (cfg : Config) (api : Api) (fuel : Nat) (query : String) :
    List Partition → List PRItem → St → Except GhError (List PRItem × St)
  | [], acc, st => Except.ok (acc, st)
  | p :: rest, acc, st =>
    if st.cancelled || checkTotalRecordsLimit cfg st then Except.ok (acc, st)
    else
      let pq := query ++ " created:" ++ toString p.startDay ++ ".." ++ toString p.endDay
      match searchPullRequestsForQuery cfg api fuel pq st with
      | Except.error e => Except.error e
      | Except.ok res =>
        let acc2 := acc ++ res.1
        if checkTotalRecordsLimit cfg res.2 then
          let excess := acc2.length - getRemainingRecords cfg res.2
          Except.ok (if 0 < excess then acc2.take (acc2.length - excess) else acc2, res.2)
        else searchPRsPartLoop cfg api fuel query rest acc2 res.2

/-- `searchPullRequestsForUser(baseQuery, dateRange)`
(part_004 lines 622-675): partitioned search when a date range is in
force, a single query otherwise. -/
def searchPullRequestsForUser (cfg : Config) (api : Api) (fuel : Nat)
    (baseQuery : String) (dateRange : Option (Int × Int)) (st : St) :
    Except GhError (List PRItem × St) :=
  let query := buildSearchQuery cfg baseQuery
  match dateRange with
  | some d =>
    if cfg.ignoreDateRange then searchPullRequestsForQuery cfg api fuel query st
    else searchPRsPartLoop cfg api fuel query (createDatePartitions d.1 d.2) [] st
  | none => searchPullRequestsForQuery cfg api fuel query st

/-- `searchPullRequestsWithPartitioning(searchUser, dateRange)`
(part_004 lines 590-620): the `author:`/`user:` dual query (the two
searches read the same state and write none of the modeled fields, so
sequencing them is faithful to `Promise.all`), deduplicated by
(number, repository_url), then capped at the remaining budget and counted
into `totalFetched`. -/
def searchPullRequestsWithPartitioning (cfg : Config) (api : Api) (fuel : Nat)
    (searchUser : String) (dateRange : Option (Int × Int)) (st : St) :
    Except GhError (List PRItem × St) :=
  match searchPullRequestsForUser cfg api fuel ("author:" ++ searchUser) dateRange st with
  | Except.error e => Except.error e
  | Except.ok ares =>
    match searchPullRequestsForUser cfg api fuel ("user:" ++ searchUser) dateRange ares.2 with
    | Except.error e => Except.error e
    | Except.ok ures =>
      let uniquePRs := dedupByNumberRepo (ares.1 ++ ures.1)
      if 0 < cfg.totalRecords then
        let remaining := getRemainingRecords cfg ures.2
        let uniquePRs :=
          if remaining < uniquePRs.length then uniquePRs.take remaining else uniquePRs
        Except.ok (uniquePRs,
          { ures.2 with totalFetched := ures.2.totalFetched + uniquePRs.length })
      else Except.ok (uniquePRs, ures.2)

/-! ## Pull-request commits and the analysis pipeline -/

/-- `getPullRequestCommits(owner, repo, pullNumber)`
(part_004 lines 763-813): a single (unpaginated) request; every error is
recorded and an empty list returned; `totalFetched` is never touched. -/
def getPullRequestCommits (cfg : Config) (api : Api)
    (owner repo : String) (pullNumber : Nat) (st : St) : List Commit × St :=
  match api.pullCommits owner repo pullNumber with
  | Except.ok commits => (commits.map (mkPrCommit owner repo pullNumber), st)
  | Except.error e =>
    ([], recordError st "getPullRequestCommits" (owner ++ "/" ++ repo) e.message)

/-- The per-PR loop of the "Pull Request Commit Analysis" phase
(part_004 lines 932-948): `owner`/`repo` come from
`pr.repository_url.split("/").slice(-2)`. -/
def fetchPrCommitsLoop (cfg : Config) (api : Api) :
    List PRItem → List Commit → St → List Commit × St
  | [], acc, st => (acc, st)
  | pr :: rest, acc, st =>
    if st.cancelled || checkTotalRecordsLimit cfg st then (acc, st)
    else
      let parts := pr.repository_url.splitOn "/"
      let owner := (parts.drop (parts.length - 2)).headD ""
      let repo := parts.getLastD ""
      let res := getPullRequestCommits cfg api owner repo pr.number st
      fetchPrCommitsLoop cfg api rest (acc ++ res.1) res.2

/-- `validateUser` (part_004 lines 326-338): a 404 becomes "User not
found", any other failure "Failed to validate user"; both abort the run. -/
def validateUser (api : Api) : Except RunError Unit :=
  match api.userLookup with
  | Except.ok _ => Except.ok ()
  | Except.error e =>
    if e.status = some 404 then Except.error RunError.userNotFound
    else Except.error (RunError.userValidationFailed e.message)

/-- The data flow of `analyzeUserCommits` (part_004 lines 815-1006):
validate the user, walk repositories for direct commits, then — unless
cancelled or over budget — search pull requests, fetch their commits and
reconcile.  The returned list is what `this.commits` is set to (line 972;
the `userId` decoration added there changes no modeled field and no
length) and is what `generateReport` receives. -/
def analyzeUserCommits (cfg : Config) (api : Api) (fuel : Nat) (st : St) :
    Except RunError (List Commit × St) :=
  match validateUser api with
  | Except.error e => Except.error e
  | Except.ok _ =>
    let dateRange :=
      match cfg.startDay, cfg.endDay with
      | some s, some e => if cfg.ignoreDateRange then none else some (s, e)
      | _, _ => none
    let dres := searchUserRepositoryCommits cfg api fuel cfg.searchUser dateRange st
    let directCommits := dres.1
    let st := dres.2
    if st.cancelled || checkTotalRecordsLimit cfg st then Except.ok (directCommits, st)
    else
      match searchPullRequestsWithPartitioning cfg api fuel cfg.searchUser dateRange st with
      | Except.error e => Except.error (RunError.search e)
      | Except.ok pres =>
        let pullRequests := pres.1
        let st := pres.2
        if 0 < pullRequests.length ∧ st.cancelled = false ∧
            checkTotalRecordsLimit cfg st = false then
          let cres := fetchPrCommitsLoop cfg api pullRequests [] st
          Except.ok (reconcileCommits directCommits cres.1, cres.2)
        else Except.ok (directCommits, st)


/-! ## Concrete runs used by the evaluation theorems -/

/-- GitHub pagination: a page request returns the slice
`[(page-1)*perPage, page*perPage)` of the full listing. -/
def pageSlice {α : Type} (l : List α) (page perPage : Nat) : List α :=
  (l.drop ((page - 1) * perPage)).take perPage

/-- A run configured with a total-record budget of 4
(`--totalRecords 4`, no org/repo scope, `--ignoreDateRange`). -/
def cfgBudgetRun : Config :=
  { searchUser := "u", org := none, repo := none, ignoreDateRange := true,
    totalRecords := 4, includeDetails := false, startDay := none, endDay := none }

/-- A remote end holding one repository `o/r1` with one direct commit
`d0`, and one pull request `#9` in `o/r1` (found by both the `author:`
and the `user:` query) holding four commits `p0..p3`, every sha distinct. -/
def apiBudgetRun : Api :=
  { userLookup := Except.ok ()
    usersRepos := fun page perPage => Except.ok (pageSlice [⟨"o", "r1"⟩] page perPage)
    repoCommits := fun _ _ _ page perPage =>
      Except.ok (pageSlice [⟨"d0", "m", "t", "a", "w"⟩] page perPage)
    searchIssues := fun _ page perPage =>
      Except.ok (pageSlice [⟨1, 9, "x/o/r1"⟩] page perPage)
    pullCommits := fun _ _ _ =>
      Except.ok [⟨"p0", "m", "t", "a", "w"⟩, ⟨"p1", "m", "t", "a", "w"⟩,
                 ⟨"p2", "m", "t", "a", "w"⟩, ⟨"p3", "m", "t", "a", "w"⟩] }

/-- The instance state at the start of a run (part_004 lines 180-184). -/
def initialSt : St := { totalFetched := 0, errors := [], cancelled := false }

/-! ## C2: the date partitioner leaves a gap on an 8-day-multiple range -/

/-- C2: the spec claims that for every `start <= end` the partitions cover
every day of `[start, end]` with no gap, including when `end` is `start`
plus a multiple of 8 days.  On the range `[0, 8]` (e.g. 2024-01-01 to
2024-01-09) the code produces the single partition `[0, 7]` and day 8 —
the `end` day itself — is covered by no partition: the loop guard
`current < end` skips the final iteration exactly when `current` lands on
`end`.  So the code contradicts the claimed no-gap invariant. -/
theorem createDatePartitions_multiple_of_eight_gap :
    createDatePartitions 0 8 = [{ startDay := 0, endDay := 7 }] ∧
    (∀ p ∈ createDatePartitions 0 8, ¬(p.startDay ≤ 8 ∧ (8 : Int) ≤ p.endDay)) := by
  decide

/-! ## C7: degenerate partition bounds -/

/-- C7: the spec claims `partition(start, start)` yields the single-day
partition `[(start, start)]` and that `start > end` fails with
`InvalidRange` rather than returning an empty list.  In the code
`createDatePartitions(d, d)` returns `[]` (the guard `current < end` is
false at once), so a single-day range produces no partitions at all;
for `start > end` the CLI layer (`main`, part_004 lines 1487-1494)
rejects the configuration before the partitioner runs, while
`createDatePartitions` itself again returns the empty list. -/
theorem createDatePartitions_degenerate_bounds :
    createDatePartitions 5 5 = [] ∧
    cliRejectsDateOrder 6 5 = true ∧
    createDatePartitions 6 5 = [] := by
  decide

/-! ## C3: the total-record budget does not bound the final collection -/

/-- C3: the spec claims the final reconciled collection has length at most
the budget `b`, with PR-commit fetching included in the accounting.  In
the code `getPullRequestCommits` never adds to `totalFetched` and the
commits it returns are appended by the reconciler without any cap, so the
final collection can exceed the budget: with `totalRecords = 4` and a
remote end holding 1 repository, 1 direct commit and one PR with 4
commits, the run ends with 5 commits (and `totalFetched = 3`). -/
theorem budget_exceeded_by_pr_commits :
    (analyzeUserCommits cfgBudgetRun apiBudgetRun 20 initialSt).toOption.map
        (fun r => (r.1.length, r.2.totalFetched)) = some (5, 3) ∧
    cfgBudgetRun.totalRecords = 4 := by
  constructor
  · rfl
  · rfl

/-! ## C6: retry behavior of the request executor -/

/-- C6 counterexample: the claim says a 403 with zero remaining quota is
retried exactly once after waiting for the reset.  In the code the 403
branch shares the `maxRetries = 3` attempt budget: a request whose first
two attempts fail with 403/zero-remaining is retried twice (two reset
waits) and still succeeds on the third attempt, which "retries exactly
once" forbids. -/
theorem makeRequest_403_retries_twice_counterexample :
    makeRequest [ReqOutcome.err (some 403) true, ReqOutcome.err (some 403) true,
        ReqOutcome.ok 7]
      = MakeResult.success 7 [Wait.reset, Wait.reset] ∧
    ([Wait.reset, Wait.reset].length ≠ 1) := by
  decide

/-- C6 amended: (1) an error whose status is not a 4xx/5xx (in particular
a non-HTTP failure with no status) propagates unmodified without any
retry; (2) other 4xx/5xx failures back off `2^attempt` seconds starting
at 1s, and a request succeeding on the third attempt has waited 1s then
2s; (3) after three 4xx/5xx failures the error is rethrown — at most 3
attempts; (4) a 403 with zero remaining waits for the reset and retries
within the same 3-attempt budget, and when all three attempts hit it the
`while` loop exits and the call returns `undefined` (no error raised). -/
theorem makeRequest_retry_spec :
    (∀ (status : Option Nat) (rz : Bool) (rest : List ReqOutcome),
      statusAtLeast400 status = false → ¬(status = some 403 ∧ rz = true) →
      makeRequest (ReqOutcome.err status rz :: rest)
        = MakeResult.thrown status rz []) ∧
    (∀ (s1 s2 : Nat) (d : Nat) (rest : List ReqOutcome),
      400 ≤ s1 → 400 ≤ s2 → s1 ≠ 403 → s2 ≠ 403 →
      makeRequest (ReqOutcome.err (some s1) false :: ReqOutcome.err (some s2) false ::
          ReqOutcome.ok d :: rest)
        = MakeResult.success d [Wait.backoff 1, Wait.backoff 2]) ∧
    (∀ (s1 s2 s3 : Nat) (rest : List ReqOutcome),
      400 ≤ s1 → 400 ≤ s2 → 400 ≤ s3 → s1 ≠ 403 → s2 ≠ 403 → s3 ≠ 403 →
      makeRequest (ReqOutcome.err (some s1) false :: ReqOutcome.err (some s2) false ::
          ReqOutcome.err (some s3) false :: rest)
        = MakeResult.thrown (some s3) false [Wait.backoff 1, Wait.backoff 2]) ∧
    (∀ (rest : List ReqOutcome),
      makeRequest (ReqOutcome.err (some 403) true :: ReqOutcome.err (some 403) true ::
          ReqOutcome.err (some 403) true :: rest)
        = MakeResult.loopFellThrough [Wait.reset, Wait.reset, Wait.reset]) := by
  refine ⟨?_, ?_, ?_, ?_⟩
  · intro status rz rest h400 h403
    simp [makeRequest, makeRequestGo, h403, h400]
  · intro s1 s2 d rest h1 h2 h1n h2n
    have e1 : ¬(some s1 = some 403 ∧ False = True) := by simp
    simp [makeRequest, makeRequestGo, statusAtLeast400, h1, h2]
  · intro s1 s2 s3 rest h1 h2 h3 h1n h2n h3n
    simp [makeRequest, makeRequestGo, statusAtLeast400, h1, h2, h3]
  · intro rest
    cases rest <;> simp [makeRequest, makeRequestGo]

/-- C6 witness: the amended behaviors at concrete statuses 500/502/503,
a status-less network failure, and the triple 403. -/
theorem makeRequest_retry_spec_witness :
    makeRequest [ReqOutcome.err none false] = MakeResult.thrown none false [] ∧
    makeRequest [ReqOutcome.err (some 500) false, ReqOutcome.err (some 502) false,
        ReqOutcome.ok 7] = MakeResult.success 7 [Wait.backoff 1, Wait.backoff 2] ∧
    makeRequest [ReqOutcome.err (some 500) false, ReqOutcome.err (some 502) false,
        ReqOutcome.err (some 503) false]
      = MakeResult.thrown (some 503) false [Wait.backoff 1, Wait.backoff 2] ∧
    makeRequest [ReqOutcome.err (some 403) true, ReqOutcome.err (some 403) true,
        ReqOutcome.err (some 403) true]
      = MakeResult.loopFellThrough [Wait.reset, Wait.reset, Wait.reset] :=
  ⟨makeRequest_retry_spec.1 none false [] (by decide) (by decide),
   makeRequest_retry_spec.2.1 500 502 7 [] (by decide) (by decide) (by decide) (by decide),
   makeRequest_retry_spec.2.2.1 500 502 503 [] (by decide) (by decide) (by decide)
     (by decide) (by decide) (by decide),
   makeRequest_retry_spec.2.2.2 []⟩

/-! ## Reconciler lemmas -/

lemma updateFirstBySha_map_sha (ds : List Commit) (q : Commit) :
    (updateFirstBySha ds q).map (fun c => c.sha) = ds.map (fun c => c.sha) := by
  induction ds with
  | nil => rfl
  | cons c cs ih =>
    by_cases h : c.sha = q.sha
    · simp [updateFirstBySha, h, reclassifiedWith]
    · simp [updateFirstBySha, h, ih]

lemma reclassifyCommits_map_sha (prs : List Commit) :
    ∀ ds : List Commit,
      (reclassifyCommits ds prs).map (fun c => c.sha) = ds.map (fun c => c.sha) := by
  induction prs with
  | nil => intro ds; rfl
  | cons p rest ih =>
    intro ds
    show (reclassifyCommits (updateFirstBySha ds p) rest).map (fun c => c.sha) = _
    rw [ih (updateFirstBySha ds p), updateFirstBySha_map_sha]

lemma reclassifyCommits_length (ds prs : List Commit) :
    (reclassifyCommits ds prs).length = ds.length := by
  have h := congrArg List.length (reclassifyCommits_map_sha prs ds)
  simpa using h

lemma sha_not_mem_of_any_eq_false {ds : List Commit} {s : String}
    (h : (ds.any fun c => c.sha == s) = false) :
    s ∉ ds.map fun c => c.sha := by
  simp only [List.any_eq_false, beq_iff_eq] at h
  intro hs
  rcases List.mem_map.mp hs with ⟨c, hc, rfl⟩
  exact h c hc rfl

lemma appendMissingPrCommits_nodup_sha (prs : List Commit) :
    ∀ ds : List Commit, ((ds.map fun c => c.sha).Nodup) →
      (((appendMissingPrCommits ds prs).map fun c => c.sha).Nodup) := by
  induction prs with
  | nil => intro ds h; exact h
  | cons p rest ih =>
    intro ds h
    by_cases hany : (ds.any fun c => c.sha == p.sha) = true
    · simpa [appendMissingPrCommits, hany] using ih ds h
    · have hf : (ds.any fun c => c.sha == p.sha) = false :=
        Bool.eq_false_iff.mpr hany
      have hnm := sha_not_mem_of_any_eq_false hf
      have h2 : (((ds ++ [p]).map fun c => c.sha).Nodup) := by
        simp [List.nodup_append, h, hnm]
      simpa [appendMissingPrCommits, hf] using ih (ds ++ [p]) h2

/-! ## C1: reconciliation and duplicate shas -/

/-- C1 amended: when the direct-commit collection has pairwise-distinct
shas, reconciliation yields a collection with pairwise-distinct shas (the
PR-commit side may repeat shas freely: the append loop consults the live,
growing array).  The spec additionally quantifies over direct-commit
collections that themselves repeat a sha, and there the invariant fails
(see the counterexample). -/
theorem reconcileCommits_nodup_sha_of_direct_nodup
    (direct prCommits : List Commit)
    (h : ((direct.map fun c => c.sha).Nodup)) :
    (((reconcileCommits direct prCommits).map fun c => c.sha).Nodup) := by
  unfold reconcileCommits
  refine appendMissingPrCommits_nodup_sha prCommits _ ?_
  rw [reclassifyCommits_map_sha]
  exact h

/-- C1 witness: a direct commit and a PR commit with distinct shas. -/
theorem reconcileCommits_nodup_sha_of_direct_nodup_witness :
    (([⟨"a1", "m", "d", "o/r", CommitType.direct, none, "u", "w"⟩] :
        List Commit).map fun c => c.sha).Nodup ∧
    (((reconcileCommits
        [⟨"a1", "m", "d", "o/r", CommitType.direct, none, "u", "w"⟩]
        [⟨"b2", "m", "d", "o/r", CommitType.pull_request, some 3, "u", "w"⟩]).map
          fun c => c.sha).Nodup) :=
  ⟨by decide,
   reconcileCommits_nodup_sha_of_direct_nodup _ _ (by decide)⟩

/-- C1 counterexample: with a direct-commit collection that repeats the
sha "a", reconciliation (here with no PR commits at all) returns both
entries, so the output does contain a duplicate sha — refuting the
all-collections quantification. -/
theorem reconcile_dup_direct_sha_counterexample :
    ¬ (((reconcileCommits
        [⟨"a", "m", "d", "o/r", CommitType.direct, none, "u", "w"⟩,
         ⟨"a", "m2", "d", "o/r", CommitType.direct, none, "u", "w"⟩] []).map
          fun c => c.sha).Nodup) := by
  decide

/-! ## C4: in-place reclassification -/

lemma filter_sha_eq_nil_of_not_mem {ds : List Commit} {s : String}
    (h : s ∉ ds.map fun c => c.sha) :
    ds.filter (fun c => c.sha == s) = [] := by
  induction ds with
  | nil => rfl
  | cons c cs ih =>
    simp only [List.map_cons, List.mem_cons, not_or] at h
    rw [List.filter_cons, if_neg (by simp [beq_iff_eq]; exact fun e => h.1 e.symm)]
    exact ih h.2

lemma filter_sha_of_nodup_mem {ds : List Commit} {d : Commit}
    (hnd : ((ds.map fun c => c.sha).Nodup)) (hd : d ∈ ds) :
    ds.filter (fun c => c.sha == d.sha) = [d] := by
  induction ds with
  | nil => cases hd
  | cons c cs ih =>
    simp only [List.map_cons, List.nodup_cons] at hnd
    rcases List.mem_cons.mp hd with rfl | hd2
    · rw [List.filter_cons, if_pos (by simp)]
      rw [filter_sha_eq_nil_of_not_mem hnd.1]
    · by_cases hcs : c.sha = d.sha
      · exact absurd (hcs ▸ List.mem_map.mpr ⟨d, hd2, rfl⟩) hnd.1
      · rw [List.filter_cons, if_neg (by simp [beq_iff_eq, hcs])]
        exact ih hnd.2 hd2

lemma updateFirstBySha_filter_ne (ds : List Commit) (q : Commit) (s : String)
    (h : q.sha ≠ s) :
    (updateFirstBySha ds q).filter (fun c => c.sha == s)
      = ds.filter (fun c => c.sha == s) := by
  induction ds with
  | nil => rfl
  | cons c cs ih =>
    by_cases hc : c.sha = q.sha
    · have hcs : ¬ c.sha = s := by rw [hc]; exact h
      simp only [updateFirstBySha, if_pos hc]
      rw [List.filter_cons, if_neg (by simp [beq_iff_eq, reclassifiedWith, hcs]),
        List.filter_cons, if_neg (by simp [beq_iff_eq, hcs])]
    · simp only [updateFirstBySha, if_neg hc]
      rw [List.filter_cons, List.filter_cons, ih]

lemma updateFirstBySha_filter_match (ds : List Commit) (q d : Commit)
    (hnd : ((ds.map fun c => c.sha).Nodup)) (hd : d ∈ ds) (hq : q.sha = d.sha) :
    (updateFirstBySha ds q).filter (fun c => c.sha == d.sha)
      = [reclassifiedWith d q] := by
  induction ds with
  | nil => cases hd
  | cons c cs ih =>
    simp only [List.map_cons, List.nodup_cons] at hnd
    by_cases hc : c.sha = q.sha
    · rcases List.mem_cons.mp hd with rfl | hd2
      · simp only [updateFirstBySha, if_pos hc]
        rw [List.filter_cons, if_pos (by simp [reclassifiedWith])]
        rw [filter_sha_eq_nil_of_not_mem hnd.1]
      · exact absurd ((hc.trans hq) ▸ List.mem_map.mpr ⟨d, hd2, rfl⟩) hnd.1
    · have hcd : c.sha ≠ d.sha := fun e => hc (e.trans hq.symm)
      rcases List.mem_cons.mp hd with rfl | hd2
      · exact absurd rfl hcd
      · simp only [updateFirstBySha, if_neg hc]
        rw [List.filter_cons, if_neg (by simp [beq_iff_eq, hcd])]
        exact ih hnd.2 hd2

lemma reclassify_filter_no_match (prs : List Commit) :
    ∀ (ds : List Commit) (s : String),
      (∀ q ∈ prs, q.sha ≠ s) →
      (reclassifyCommits ds prs).filter (fun c => c.sha == s)
        = ds.filter (fun c => c.sha == s) := by
  induction prs with
  | nil => intro ds s _; rfl
  | cons p rest ih =>
    intro ds s hq
    show (reclassifyCommits (updateFirstBySha ds p) rest).filter _ = _
    rw [ih (updateFirstBySha ds p) s (fun q hq2 => hq q (List.mem_cons_of_mem p hq2)),
      updateFirstBySha_filter_ne ds p s (hq p (List.mem_cons_self p rest))]

lemma reclassify_filter_match (prs : List Commit) :
    ∀ (ds : List Commit) (d prc : Commit),
      ((ds.map fun c => c.sha).Nodup) →
      ds.filter (fun c => c.sha == d.sha) = [d] →
      prc ∈ prs → (∀ q ∈ prs, q.sha = prc.sha → q = prc) → d.sha = prc.sha →
      (reclassifyCommits ds prs).filter (fun c => c.sha == d.sha)
        = [reclassifiedWith d prc] := by
  induction prs with
  | nil => intro ds d prc _ _ hprc _ _; cases hprc
  | cons p rest ih =>
    intro ds d prc hnd hfil hprc huniq hsha
    have hd : d ∈ ds := by
      have : d ∈ ds.filter (fun c => c.sha == d.sha) := by rw [hfil]; simp
      exact List.mem_of_mem_filter this
    show (reclassifyCommits (updateFirstBySha ds p) rest).filter _ = _
    by_cases hp : p.sha = d.sha
    · have hpp : p = prc := huniq p (List.mem_cons_self p rest) (hp.trans hsha)
      subst hpp
      have hits := updateFirstBySha_filter_match ds p d hnd hd hp
      have hnd2 : (((updateFirstBySha ds p).map fun c => c.sha).Nodup) := by
        rw [updateFirstBySha_map_sha]; exact hnd
      have hsha2 : (reclassifiedWith d p).sha = d.sha := rfl
      by_cases hrest : p ∈ rest
      · have hres := ih (updateFirstBySha ds p) (reclassifiedWith d p) p hnd2
          (by rw [hsha2, hits]) hrest
          (fun q hq hqs => huniq q (List.mem_cons_of_mem p hq) hqs)
          (hsha2.trans hsha)
        rw [hsha2] at hres
        rw [hres]
        simp [reclassifiedWith]
      · have hnone : ∀ q ∈ rest, q.sha ≠ d.sha := by
          intro q hq hqs
          have hqp : q = p := huniq q (List.mem_cons_of_mem p hq) (hqs.trans hsha)
          exact hrest (hqp ▸ hq)
        rw [reclassify_filter_no_match rest _ _ hnone, hits]
    · have hpprc : p ≠ prc := fun e => hp (by rw [e, ← hsha])
      have hprc2 : prc ∈ rest := by
        rcases List.mem_cons.mp hprc with e | h2
        · exact absurd e.symm hpprc
        · exact h2
      have hnd2 : (((updateFirstBySha ds p).map fun c => c.sha).Nodup) := by
        rw [updateFirstBySha_map_sha]; exact hnd
      have hfil2 : (updateFirstBySha ds p).filter (fun c => c.sha == d.sha) = [d] := by
        rw [updateFirstBySha_filter_ne ds p d.sha hp, hfil]
      exact ih (updateFirstBySha ds p) d prc hnd2 hfil2 hprc2
        (fun q hq hqs => huniq q (List.mem_cons_of_mem p hq) hqs) hsha

lemma appendMissing_filter (prs : List Commit) :
    ∀ (ds : List Commit) (s : String),
      s ∈ ds.map (fun c => c.sha) →
      (appendMissingPrCommits ds prs).filter (fun c => c.sha == s)
        = ds.filter (fun c => c.sha == s) := by
  induction prs with
  | nil => intro ds s _; rfl
  | cons p rest ih =>
    intro ds s hs
    by_cases hany : (ds.any fun c => c.sha == p.sha) = true
    · simpa [appendMissingPrCommits, hany] using ih ds s hs
    · have hf : (ds.any fun c => c.sha == p.sha) = false :=
        Bool.eq_false_iff.mpr hany
      have hnm := sha_not_mem_of_any_eq_false hf
      have hps : ¬ p.sha = s := fun e => hnm (e ▸ hs)
      have hstep : appendMissingPrCommits ds (p :: rest)
          = appendMissingPrCommits (ds ++ [p]) rest := by
        simp [appendMissingPrCommits, hf]
      rw [hstep, ih (ds ++ [p]) s
        (by rw [List.map_append]; exact List.mem_append_left _ hs)]
      rw [List.filter_append]
      simp [List.filter_cons, beq_iff_eq, hps]

/-- C4: a direct commit whose sha matches a PR commit is reclassified in
place: when the direct collection has distinct shas and `prc` is the only
PR commit bearing that sha, the reconciled output contains exactly one
commit with that sha, namely the direct entry with its `type` overwritten
to `pull_request` and its `pullRequest` number taken from `prc`; and the
reclassification loop never changes the collection length. -/
theorem reconcileCommits_reclassifies_in_place
    (direct prCommits : List Commit) (d prc : Commit)
    (hnd : ((direct.map fun c => c.sha).Nodup)) (hd : d ∈ direct)
    (hprc : prc ∈ prCommits) (huniq : ∀ q ∈ prCommits, q.sha = prc.sha → q = prc)
    (hsha : d.sha = prc.sha) :
    (reconcileCommits direct prCommits).filter (fun c => c.sha == d.sha)
        = [reclassifiedWith d prc]
      ∧ (reclassifyCommits direct prCommits).length = direct.length := by
  constructor
  · unfold reconcileCommits
    have hfil : direct.filter (fun c => c.sha == d.sha) = [d] :=
      filter_sha_of_nodup_mem hnd hd
    have hmem : d.sha ∈ (reclassifyCommits direct prCommits).map fun c => c.sha := by
      rw [reclassifyCommits_map_sha]
      exact List.mem_map.mpr ⟨d, hd, rfl⟩
    rw [appendMissing_filter prCommits _ _ hmem]
    exact reclassify_filter_match prCommits direct d prc hnd hfil hprc huniq hsha
  · exact reclassifyCommits_length direct prCommits

/-- C4 witness: the spec scenario — direct `{sha "abc", type direct}` plus
PR commit `{sha "abc", pullRequest 5}` reconciles to the single commit
`{sha "abc", type pull_request, pullRequest 5}` and the count stays 1. -/
theorem reconcileCommits_reclassifies_in_place_witness :
    ((reconcileCommits
        [⟨"abc", "m", "d", "o/r", CommitType.direct, none, "u", "w"⟩]
        [⟨"abc", "m", "d", "o/r", CommitType.pull_request, some 5, "u", "w"⟩]).filter
          (fun c => c.sha == "abc")
        = [⟨"abc", "m", "d", "o/r", CommitType.pull_request, some 5, "u", "w"⟩]
      ∧ (reclassifyCommits
        [⟨"abc", "m", "d", "o/r", CommitType.direct, none, "u", "w"⟩]
        [⟨"abc", "m", "d", "o/r", CommitType.pull_request, some 5, "u", "w"⟩]).length = 1)
    ∧ (reconcileCommits
        [⟨"abc", "m", "d", "o/r", CommitType.direct, none, "u", "w"⟩]
        [⟨"abc", "m", "d", "o/r", CommitType.pull_request, some 5, "u", "w"⟩]).length = 1 :=
  ⟨reconcileCommits_reclassifies_in_place
      [⟨"abc", "m", "d", "o/r", CommitType.direct, none, "u", "w"⟩]
      [⟨"abc", "m", "d", "o/r", CommitType.pull_request, some 5, "u", "w"⟩]
      ⟨"abc", "m", "d", "o/r", CommitType.direct, none, "u", "w"⟩
      ⟨"abc", "m", "d", "o/r", CommitType.pull_request, some 5, "u", "w"⟩
      (by decide) (by decide) (by decide) (by decide) (by decide),
   by decide⟩

/-! ## C5: dual-query merge deduplication -/

lemma dedupGo_any_key (acc : List PRItem) (p : PRItem) :
    (acc.any fun q => q.number == p.number && q.repository_url == p.repository_url) = true
      ↔ prKey p ∈ acc.map prKey := by
  simp only [List.any_eq_true, Bool.and_eq_true, beq_iff_eq, List.mem_map, prKey,
    Prod.mk.injEq]

lemma dedupGo_nodup_key :
    ∀ (l acc : List PRItem), ((acc.map prKey).Nodup) →
      (((dedupGo l acc).map prKey).Nodup) := by
  intro l
  induction l with
  | nil => intro acc h; exact h
  | cons p rest ih =>
    intro acc h
    by_cases hin :
        (acc.any fun q => q.number == p.number && q.repository_url == p.repository_url) = true
    · simpa [dedupGo, hin] using ih acc h
    · have hf := Bool.eq_false_iff.mpr hin
      have hnm : prKey p ∉ acc.map prKey := fun hm =>
        hin ((dedupGo_any_key acc p).mpr hm)
      have h2 : (((acc ++ [p]).map prKey).Nodup) := by
        simp [List.nodup_append, h, hnm]
      simpa [dedupGo, hf] using ih (acc ++ [p]) h2

lemma dedupGo_mem_key :
    ∀ (l acc : List PRItem) (k : Nat × String),
      (k ∈ (dedupGo l acc).map prKey ↔ k ∈ acc.map prKey ∨ k ∈ l.map prKey) := by
  intro l
  induction l with
  | nil => intro acc k; simp [dedupGo]
  | cons p rest ih =>
    intro acc k
    by_cases hin :
        (acc.any fun q => q.number == p.number && q.repository_url == p.repository_url) = true
    · have hkm := (dedupGo_any_key acc p).mp hin
      rw [show dedupGo (p :: rest) acc = dedupGo rest acc from by simp [dedupGo, hin]]
      rw [ih acc k]
      simp only [List.map_cons, List.mem_cons]
      constructor
      · rintro (h | h)
        · exact Or.inl h
        · exact Or.inr (Or.inr h)
      · rintro (h | h | h)
        · exact Or.inl h
        · exact Or.inl (h ▸ hkm)
        · exact Or.inr h
    · have hf := Bool.eq_false_iff.mpr hin
      rw [show dedupGo (p :: rest) acc = dedupGo rest (acc ++ [p]) from by
        simp [dedupGo, hf]]
      rw [ih (acc ++ [p]) k]
      simp only [List.map_append, List.mem_append, List.map_cons, List.mem_cons,
        List.map_nil, List.mem_singleton]
      tauto

lemma dedupGo_first_wins :
    ∀ (l acc : List PRItem) (pr : PRItem), pr ∈ dedupGo l acc → pr ∉ acc →
      prKey pr ∉ acc.map prKey ∧
      l.find? (fun q => q.number == pr.number && q.repository_url == pr.repository_url)
        = some pr := by
  intro l
  induction l with
  | nil =>
    intro acc pr hm hna
    exact absurd (by simpa [dedupGo] using hm) hna
  | cons p rest ih =>
    intro acc pr hm hna
    by_cases hin :
        (acc.any fun q => q.number == p.number && q.repository_url == p.repository_url) = true
    · have hkm := (dedupGo_any_key acc p).mp hin
      rw [show dedupGo (p :: rest) acc = dedupGo rest acc from by simp [dedupGo, hin]] at hm
      obtain ⟨hk, hfind⟩ := ih acc pr hm hna
      refine ⟨hk, ?_⟩
      have hne : (p.number == pr.number && p.repository_url == pr.repository_url) = false := by
        refine Bool.eq_false_iff.mpr fun he => ?_
        simp only [Bool.and_eq_true, beq_iff_eq] at he
        exact hk (by
          have hkk : prKey pr = prKey p := by simp [prKey, he.1, he.2]
          exact hkk ▸ hkm)
      rw [List.find?_cons, hne]
      exact hfind
    · have hf := Bool.eq_false_iff.mpr hin
      have hnm : prKey p ∉ acc.map prKey := fun hmk =>
        hin ((dedupGo_any_key acc p).mpr hmk)
      rw [show dedupGo (p :: rest) acc = dedupGo rest (acc ++ [p]) from by
        simp [dedupGo, hf]] at hm
      by_cases hcase : pr ∈ acc ++ [p]
      · have hpe : pr = p := by
          rcases List.mem_append.mp hcase with h | h
          · exact absurd h hna
          · simpa using h
        subst hpe
        refine ⟨hnm, ?_⟩
        rw [List.find?_cons, show (pr.number == pr.number && pr.repository_url == pr.repository_url) = true from by simp]
      · obtain ⟨hk, hfind⟩ := ih (acc ++ [p]) pr hm hcase
        simp only [List.map_append, List.mem_append, List.map_cons, List.map_nil,
          List.mem_singleton, not_or] at hk
        have hne : (p.number == pr.number && p.repository_url == pr.repository_url) = false := by
          refine Bool.eq_false_iff.mpr fun he => ?_
          simp only [Bool.and_eq_true, beq_iff_eq] at he
          exact hk.2 (by simp [prKey, he.1, he.2])
        refine ⟨hk.1, ?_⟩
        rw [List.find?_cons, hne]
        exact hfind

/-- C5 amended: the dual-query merge deduplicates the concatenated result
sets by the key `(number, repository_url)` — not by `id` — keeping the
first occurrence of each key: the merged keys are pairwise distinct, every
kept entry is the first element of the concatenation bearing its key, and
the merged size is the number of distinct `(number, repository_url)` pairs. -/
theorem dedupByNumberRepo_key_spec (A B : List PRItem) :
    (((dedupByNumberRepo (A ++ B)).map prKey).Nodup) ∧
    (∀ pr ∈ dedupByNumberRepo (A ++ B),
      (A ++ B).find?
          (fun q => q.number == pr.number && q.repository_url == pr.repository_url)
        = some pr) ∧
    (dedupByNumberRepo (A ++ B)).length = (((A ++ B).map prKey).dedup).length := by
  have h1 : (((dedupByNumberRepo (A ++ B)).map prKey).Nodup) :=
    dedupGo_nodup_key (A ++ B) [] (by simp)
  refine ⟨h1, ?_, ?_⟩
  · intro pr hpr
    exact (dedupGo_first_wins (A ++ B) [] pr hpr (by simp)).2
  · have hperm : ((dedupByNumberRepo (A ++ B)).map prKey).Perm
        (((A ++ B).map prKey).dedup) := by
      rw [List.perm_ext_iff_of_nodup h1 (List.nodup_dedup _)]
      intro k
      rw [List.mem_dedup]
      have := dedupGo_mem_key (A ++ B) [] k
      simpa [dedupByNumberRepo] using this
    calc (dedupByNumberRepo (A ++ B)).length
        = ((dedupByNumberRepo (A ++ B)).map prKey).length := by simp
      _ = (((A ++ B).map prKey).dedup).length := hperm.length_eq

/-- C5 witness: with one authored and one participated result of distinct
keys, both survive and each is the first occurrence of its key. -/
theorem dedupByNumberRepo_key_spec_witness :
    (([(⟨1, 7, "r"⟩ : PRItem)] ++ [(⟨2, 8, "r"⟩ : PRItem)]).find?
        (fun q => q.number == (PRItem.mk 1 7 "r").number
          && q.repository_url == (PRItem.mk 1 7 "r").repository_url)
      = some (⟨1, 7, "r"⟩ : PRItem)) ∧
    (dedupByNumberRepo ([(⟨1, 7, "r"⟩ : PRItem)] ++ [(⟨2, 8, "r"⟩ : PRItem)])).length
      = ((([(⟨1, 7, "r"⟩ : PRItem)] ++ [(⟨2, 8, "r"⟩ : PRItem)]).map prKey).dedup).length :=
  ⟨(dedupByNumberRepo_key_spec [⟨1, 7, "r"⟩] [⟨2, 8, "r"⟩]).2.1 ⟨1, 7, "r"⟩ (by decide),
   (dedupByNumberRepo_key_spec [⟨1, 7, "r"⟩] [⟨2, 8, "r"⟩]).2.2⟩

/-- C5 counterexample: two entries that agree on (number, repository_url)
but carry different `id`s are merged into one, so the merged size is 1
while the union counted by `id` has size 2 — the merge does not
deduplicate by `id` as claimed. -/
theorem dedup_not_by_id_counterexample :
    dedupByNumberRepo ([(⟨1, 7, "r"⟩ : PRItem)] ++ [(⟨2, 7, "r"⟩ : PRItem)])
        = [(⟨1, 7, "r"⟩ : PRItem)] ∧
    ((([(⟨1, 7, "r"⟩ : PRItem)] ++ [(⟨2, 7, "r"⟩ : PRItem)]).map
        (fun p => p.id)).dedup).length = 2 ∧
    (dedupByNumberRepo ([(⟨1, 7, "r"⟩ : PRItem)] ++ [(⟨2, 7, "r"⟩ : PRItem)])).length ≠ 2 := by
  decide

/-! ## C8: 409/404 during commit listing is swallowed -/

/-- C8: if a commit-listing page request fails with HTTP 409 (empty
repository) or 404 (not found), `getRepositoryCommits` stops and returns
the commits accumulated so far with the state — in particular the errors
list — unchanged: the failure is not recorded, not rethrown (the function
returns normally) and cannot abort the run; a first-page failure yields
the empty list. -/
theorem getRepositoryCommits_swallows_409_404
    (cfg : Config) (api : Api) (owner repo author : String)
    (dateRange : Option (Int × Int)) (fuel page : Nat) (acc : List Commit)
    (st : St) (e : GhError)
    (hc : st.cancelled = false) (hl : checkTotalRecordsLimit cfg st = false)
    (herr : api.repoCommits owner repo (effDateRange cfg dateRange) page
      (min 100 (getRemainingRecords cfg st)) = Except.error e)
    (hstatus : e.status = some 409 ∨ e.status = some 404) :
    getRepositoryCommitsGo cfg api owner repo author dateRange (fuel + 1) page acc st
      = (acc, st) := by
  rcases hstatus with h9 | h4
  · simp [getRepositoryCommitsGo, hc, hl, herr, h9]
  · simp [getRepositoryCommitsGo, hc, hl, herr, h4]

/-- A configuration with no record budget, used by witnesses. -/
def cfgNoLimit : Config :=
  { searchUser := "u", org := none, repo := none, ignoreDateRange := true,
    totalRecords := 0, includeDetails := false, startDay := none, endDay := none }

/-- A remote end whose commit listing always answers 409 (empty
repository). -/
def apiEmptyRepo : Api :=
  { userLookup := Except.ok ()
    usersRepos := fun _ _ => Except.ok []
    repoCommits := fun _ _ _ _ _ =>
      Except.error ⟨some 409, "Git Repository is empty.", false⟩
    searchIssues := fun _ _ _ => Except.ok []
    pullCommits := fun _ _ _ => Except.ok [] }

/-- C8 witness: a 409 on the first page yields zero commits for the
repository and an unchanged state. -/
theorem getRepositoryCommits_swallows_409_404_witness :
    getRepositoryCommitsGo cfgNoLimit apiEmptyRepo "o" "r1" "u" none 1 1 [] initialSt
      = ([], initialSt) :=
  getRepositoryCommits_swallows_409_404 cfgNoLimit apiEmptyRepo "o" "r1" "u" none 0 1
    [] initialSt ⟨some 409, "Git Repository is empty.", false⟩ rfl rfl rfl
    (Or.inl rfl)

/-! ## C10: repository listing and PR-commit fetch errors never propagate -/

/-- C10: `getUserRepositories` and `getPullRequestCommits` turn every
request failure — of any status — into an entry of the errors list and a
normal return of the partial results: the repositories accumulated before
the failure, respectively the empty commit list.  Neither function can
rethrow, so a mid-run failure there cannot abort the run. -/
theorem fetch_errors_recorded_not_propagated :
    (∀ (cfg : Config) (api : Api) (fuel page : Nat) (repos : List Repo)
        (st : St) (e : GhError),
      st.cancelled = false → checkTotalRecordsLimit cfg st = false →
      api.usersRepos page (min 100 (getRemainingRecords cfg st)) = Except.error e →
      getUserRepositoriesGo cfg api (fuel + 1) page repos st
        = (repos, recordError st "getUserRepositories" cfg.searchUser e.message)) ∧
    (∀ (cfg : Config) (api : Api) (owner repo : String) (n : Nat) (st : St)
        (e : GhError),
      api.pullCommits owner repo n = Except.error e →
      getPullRequestCommits cfg api owner repo n st
        = ([], recordError st "getPullRequestCommits" (owner ++ "/" ++ repo) e.message)) := by
  constructor
  · intro cfg api fuel page repos st e hc hl herr
    simp [getUserRepositoriesGo, hc, hl, herr]
  · intro cfg api owner repo n st e herr
    simp [getPullRequestCommits, herr]

/-- A remote end failing with a status-less network error on the
repository listing and a 500 on the PR-commit listing. -/
def apiNetFail : Api :=
  { userLookup := Except.ok ()
    usersRepos := fun _ _ => Except.error ⟨none, "socket hang up", false⟩
    repoCommits := fun _ _ _ _ _ => Except.ok []
    searchIssues := fun _ _ _ => Except.ok []
    pullCommits := fun _ _ _ => Except.error ⟨some 500, "Internal Server Error", false⟩ }

/-- C10 witness: both failures are recorded and partial results returned. -/
theorem fetch_errors_recorded_not_propagated_witness :
    getUserRepositoriesGo cfgNoLimit apiNetFail 1 1 [] initialSt
      = ([], recordError initialSt "getUserRepositories" "u" "socket hang up") ∧
    getPullRequestCommits cfgNoLimit apiNetFail "o" "r1" 9 initialSt
      = ([], recordError initialSt "getPullRequestCommits" "o/r1" "Internal Server Error") :=
  ⟨fetch_errors_recorded_not_propagated.1 cfgNoLimit apiNetFail 0 1 [] initialSt
      ⟨none, "socket hang up", false⟩ rfl rfl rfl,
   fetch_errors_recorded_not_propagated.2 cfgNoLimit apiNetFail "o" "r1" 9 initialSt
      ⟨some 500, "Internal Server Error", false⟩ rfl⟩

/-! ## C9: type field and pullRequest field move together -/

/-- The implicit invariant: a commit is typed `pull_request` exactly when
its `pullRequest` field is set. -/
def commitTypeInv (c : Commit) : Prop :=
  c.type = CommitType.pull_request ↔ c.pullRequest ≠ none

lemma updateFirstBySha_inv (q : Commit) (hq : q.pullRequest ≠ none) :
    ∀ ds : List Commit, (∀ c ∈ ds, commitTypeInv c) →
      ∀ c ∈ updateFirstBySha ds q, commitTypeInv c := by
  intro ds
  induction ds with
  | nil => intro _ c hc; cases hc
  | cons a as ih =>
    intro hds c hc
    by_cases h : a.sha = q.sha
    · simp only [updateFirstBySha, if_pos h] at hc
      rcases List.mem_cons.mp hc with rfl | hc2
      · simp [commitTypeInv, reclassifiedWith, hq]
      · exact hds c (List.mem_cons_of_mem a hc2)
    · simp only [updateFirstBySha, if_neg h] at hc
      rcases List.mem_cons.mp hc with rfl | hc2
      · exact hds _ (List.mem_cons_self _ _)
      · exact ih (fun x hx => hds x (List.mem_cons_of_mem a hx)) c hc2

lemma reclassifyCommits_inv (prs : List Commit) :
    ∀ ds : List Commit, (∀ c ∈ ds, commitTypeInv c) →
      (∀ p ∈ prs, p.pullRequest ≠ none) →
      ∀ c ∈ reclassifyCommits ds prs, commitTypeInv c := by
  induction prs with
  | nil => intro ds hds _ c hc; exact hds c hc
  | cons p rest ih =>
    intro ds hds hprs c hc
    have hstep : reclassifyCommits ds (p :: rest)
        = reclassifyCommits (updateFirstBySha ds p) rest := rfl
    rw [hstep] at hc
    exact ih (updateFirstBySha ds p)
      (updateFirstBySha_inv p (hprs p (List.mem_cons_self p rest)) ds hds)
      (fun x hx => hprs x (List.mem_cons_of_mem p hx)) c hc

lemma appendMissingPrCommits_inv (prs : List Commit) :
    ∀ ds : List Commit, (∀ c ∈ ds, commitTypeInv c) →
      (∀ p ∈ prs, commitTypeInv p) →
      ∀ c ∈ appendMissingPrCommits ds prs, commitTypeInv c := by
  induction prs with
  | nil => intro ds hds _ c hc; exact hds c hc
  | cons p rest ih =>
    intro ds hds hprs c hc
    by_cases hany : (ds.any fun c => c.sha == p.sha) = true
    · rw [show appendMissingPrCommits ds (p :: rest) = appendMissingPrCommits ds rest
        from by simp [appendMissingPrCommits, hany]] at hc
      exact ih ds hds (fun x hx => hprs x (List.mem_cons_of_mem p hx)) c hc
    · have hf : (ds.any fun c => c.sha == p.sha) = false := Bool.eq_false_iff.mpr hany
      rw [show appendMissingPrCommits ds (p :: rest)
          = appendMissingPrCommits (ds ++ [p]) rest
        from by simp [appendMissingPrCommits, hf]] at hc
      refine ih (ds ++ [p]) ?_ (fun x hx => hprs x (List.mem_cons_of_mem p hx)) c hc
      intro x hx
      rcases List.mem_append.mp hx with h | h
      · exact hds x h
      · rw [List.mem_singleton.mp h]
        exact hprs p (List.mem_cons_self p rest)

lemma getRepositoryCommitsGo_types (cfg : Config) (api : Api)
    (owner repo author : String) (dateRange : Option (Int × Int)) :
    ∀ (fuel page : Nat) (acc : List Commit) (st : St),
      (∀ c ∈ acc, c.type = CommitType.direct ∧ c.pullRequest = none) →
      ∀ c ∈ (getRepositoryCommitsGo cfg api owner repo author dateRange fuel page acc st).1,
        c.type = CommitType.direct ∧ c.pullRequest = none := by
  intro fuel
  induction fuel with
  | zero => intro page acc st hacc; simpa [getRepositoryCommitsGo] using hacc
  | succ n ih =>
    intro page acc st hacc
    have hacc2 : ∀ (response : List RawCommit),
        ∀ c ∈ acc ++ response.map (mkDirectCommit owner repo),
          c.type = CommitType.direct ∧ c.pullRequest = none := by
      intro response c hc
      rcases List.mem_append.mp hc with h | h
      · exact hacc c h
      · rcases List.mem_map.mp h with ⟨rc, _, rfl⟩
        simp [mkDirectCommit]
    rw [getRepositoryCommitsGo]
    split
    · exact hacc
    · split
      · split
        · exact hacc
        · exact hacc
      · split
        · exact hacc
        · split
          · exact hacc2 _
          · dsimp only
            split
            · split
              · intro c hc
                exact hacc2 _ c (List.mem_of_mem_take hc)
              · exact hacc2 _
            · exact ih _ _ _ (hacc2 _)

/-- C9: (a) every commit built by the repository walk carries type
`direct` and `pullRequest` null; (b) every commit built from a PR commit
listing carries type `pull_request` and the PR number; (c) reconciliation
preserves the invariant that `type = pull_request` holds exactly when
`pullRequest` is non-null, given PR commits typed as in (b) — so every
commit of the final reconciled collection satisfies the invariant. -/
theorem commit_type_pullRequest_invariant :
    (∀ (cfg : Config) (api : Api) (owner repo author : String)
        (dateRange : Option (Int × Int)) (fuel page : Nat) (acc : List Commit)
        (st : St),
      (∀ c ∈ acc, c.type = CommitType.direct ∧ c.pullRequest = none) →
      ∀ c ∈ (getRepositoryCommitsGo cfg api owner repo author dateRange fuel page
          acc st).1,
        c.type = CommitType.direct ∧ c.pullRequest = none) ∧
    (∀ (cfg : Config) (api : Api) (owner repo : String) (n : Nat) (st : St),
      ∀ c ∈ (getPullRequestCommits cfg api owner repo n st).1,
        c.type = CommitType.pull_request ∧ c.pullRequest = some n) ∧
    (∀ (direct prCommits : List Commit),
      (∀ c ∈ direct, commitTypeInv c) →
      (∀ p ∈ prCommits, p.type = CommitType.pull_request ∧ p.pullRequest ≠ none) →
      ∀ c ∈ reconcileCommits direct prCommits, commitTypeInv c) := by
  refine ⟨?_, ?_, ?_⟩
  · intro cfg api owner repo author dateRange fuel page acc st hacc
    exact getRepositoryCommitsGo_types cfg api owner repo author dateRange fuel page
      acc st hacc
  · intro cfg api owner repo n st c hc
    rcases hapi : api.pullCommits owner repo n with e | commits
    · rw [show (getPullRequestCommits cfg api owner repo n st).1 = []
        from by simp [getPullRequestCommits, hapi]] at hc
      cases hc
    · rw [show (getPullRequestCommits cfg api owner repo n st).1
          = commits.map (mkPrCommit owner repo n)
        from by simp [getPullRequestCommits, hapi]] at hc
      rcases List.mem_map.mp hc with ⟨rc, _, rfl⟩
      simp [mkPrCommit]
  · intro direct prCommits hdir hprs
    unfold reconcileCommits
    refine appendMissingPrCommits_inv prCommits _ ?_ ?_
    · exact reclassifyCommits_inv prCommits direct hdir
        (fun p hp => (hprs p hp).2)
    · intro p hp
      simp [commitTypeInv, (hprs p hp).1, (hprs p hp).2]

/-- C9 witness: a PR commit appended by reconciliation satisfies the
invariant. -/
theorem commit_type_pullRequest_invariant_witness :
    commitTypeInv ⟨"z", "m", "d", "o/r", CommitType.pull_request, some 3, "u", "w"⟩ :=
  commit_type_pullRequest_invariant.2.2 []
    [⟨"z", "m", "d", "o/r", CommitType.pull_request, some 3, "u", "w"⟩]
    (fun c hc => absurd hc (List.not_mem_nil c))
    (by decide)
    ⟨"z", "m", "d", "o/r", CommitType.pull_request, some 3, "u", "w"⟩
    (by decide)
